import Mathlib

/-!
# Verification of the Quantum State Visualizer frontend and its processing pipeline

This file embeds, in Lean 4:

* `QSim` — the quantum processing pipeline (gate library, state simulator,
  density-matrix builder, partial-trace engine, Bloch projector).  The backend
  sources (`backend/quantum_processor.py`, `backend/app.py`) are not part of the
  repository snapshot, so this component is modelled from the specification's
  component design (§4.1–§4.5) over the exact subfield ℚ[i,√2] of ℂ, which
  contains every matrix entry of the gates h, x, y, z, cx, cz.
* `Builder` — the `CircuitBuilder` React component's state and its operations
  (`addGate`, `removeGate`, `clearCircuit`, `loadExampleCircuit`, the selector
  events), from `frontend/src/components/CircuitBuilder.js`.
* `AppM` — the `App` component's state and handlers (`processCircuit`,
  `handleCircuitChange`, `exportCircuit`, `importCircuit`), from
  `frontend/src/App.js`, together with an executable model of `JSON.stringify`
  (with the indent argument 2 used by `exportCircuit`) and `JSON.parse`.
-/

namespace QSim

/-- An exact rational `num/den` as an unnormalised integer pair (`den` is kept
positive by construction; equality is by cross-multiplication, so no gcd
normalisation is ever needed and every operation reduces in the kernel). -/
structure Frac where
  num : ℤ
  den : ℤ
deriving Repr

instance : Zero Frac := ⟨⟨0, 1⟩⟩

instance : One Frac := ⟨⟨1, 1⟩⟩

instance : Add Frac := ⟨fun x y => ⟨x.num * y.den + y.num * x.den, x.den * y.den⟩⟩

instance : Neg Frac := ⟨fun x => ⟨-x.num, x.den⟩⟩

instance : Sub Frac := ⟨fun x y => x + -y⟩

instance : Mul Frac := ⟨fun x y => ⟨x.num * y.num, x.den * y.den⟩⟩

/-- Semantic equality of fractions: `a/b = c/d ↔ a·d = c·b`. -/
def Frac.beq (x y : Frac) : Bool := x.num * y.den == y.num * x.den

/-- The fraction one half. -/
def half : Frac := ⟨1, 2⟩

/-- An element `a + b·√2` of the field ℚ[√2]. -/
structure QS where
  a : Frac
  b : Frac
deriving Repr

instance : Zero QS := ⟨⟨0, 0⟩⟩

instance : One QS := ⟨⟨1, 0⟩⟩

instance : Add QS := ⟨fun x y => ⟨x.a + y.a, x.b + y.b⟩⟩

instance : Neg QS := ⟨fun x => ⟨-x.a, -x.b⟩⟩

instance : Sub QS := ⟨fun x y => x + -y⟩

instance : Mul QS :=
  ⟨fun x y => ⟨x.a * y.a + (⟨2, 1⟩ : Frac) * (x.b * y.b), x.a * y.b + x.b * y.a⟩⟩

/-- Semantic equality on ℚ[√2] (componentwise, since 1 and √2 are linearly
independent over ℚ). -/
def QS.beq (x y : QS) : Bool := Frac.beq x.a y.a && Frac.beq x.b y.b

/-- An element `re + im·i` of the field ℚ[√2, i]: exact complex numbers whose
real and imaginary parts lie in ℚ[√2].  Every entry of the unitaries for the
gates h, x, y, z, cx, cz lies in this field, so the Bell-state pipeline is
computed exactly, with no floating-point tolerance needed. -/
structure QC where
  re : QS
  im : QS
deriving Repr

instance : Zero QC := ⟨⟨0, 0⟩⟩

instance : One QC := ⟨⟨1, 0⟩⟩

instance : Add QC := ⟨fun x y => ⟨x.re + y.re, x.im + y.im⟩⟩

instance : Neg QC := ⟨fun x => ⟨-x.re, -x.im⟩⟩

instance : Sub QC := ⟨fun x y => x + -y⟩

instance : Mul QC :=
  ⟨fun x y => ⟨x.re * y.re - x.im * y.im, x.re * y.im + x.im * y.re⟩⟩

/-- Semantic equality on ℚ[√2, i] (componentwise). -/
def QC.beq (x y : QC) : Bool := QS.beq x.re y.re && QS.beq x.im y.im

/-- Complex conjugation on ℚ[√2, i]. -/
def QC.conj (x : QC) : QC := ⟨x.re, -x.im⟩

/-- The imaginary unit. -/
def QC.I : QC := ⟨0, 1⟩

/-- `1/√2 = (1/2)·√2`, the Hadamard normalisation factor. -/
def invSqrt2 : QC := ⟨⟨0, half⟩, 0⟩

/-- The single-qubit gates of the catalog whose matrices are exactly
representable without a rotation angle. -/
inductive SGate where
  | h
  | x
  | y
  | z
deriving DecidableEq, Repr

/-- Modelled from the spec: the Gate Library (§4.1) entry for each single-qubit
gate, as the row-major entries `(u00, u01, u10, u11)` of its unitary.
The backend `quantum_processor.py` is absent from the repository; matrices are
the standard ones named by the spec (Hadamard, Pauli-X/Y/Z). -/
def gateLibrary : SGate → QC × QC × QC × QC
  | .h => (invSqrt2, invSqrt2, invSqrt2, -invSqrt2)
  | .x => (0, 1, 1, 0)
  | .y => (0, -QC.I, QC.I, 0)
  | .z => (1, 0, 0, -1)

/-- A gate instance of the modelled pipeline: the single-qubit gates above on a
qubit index, or a two-qubit cx/cz with control and target indices. -/
inductive MGate where
  | single (g : SGate) (qubit : ℕ)
  | cx (control target : ℕ)
  | cz (control target : ℕ)
deriving DecidableEq, Repr

/-- Amplitude at basis index `i` (0 outside the vector). -/
def amp (ψ : List QC) (i : ℕ) : QC := ψ.getD i 0

/-- Modelled from the spec: the State Simulator's initial all-zero basis state
(§4.2) — amplitude 1 at index 0, 0 elsewhere, length `2^n`. -/
def initState (n : ℕ) : List QC := 1 :: List.replicate (2 ^ n - 1) 0

/-- Modelled from the spec: apply a single-qubit unitary to qubit `q` by
index-arithmetic contraction over the amplitude pairs selected by the fixed
qubit-ordering convention (§4.2).  Convention, fixed here as the spec requires:
qubit `q` controls bit `q` of the basis index (little-endian). -/
def applySingle (g : SGate) (q : ℕ) (ψ : List QC) : List QC :=
  let u := gateLibrary g
  (List.range ψ.length).map fun i =>
    if Nat.testBit i q then
      u.2.2.1 * amp ψ (i - 2 ^ q) + u.2.2.2 * amp ψ i
    else
      u.1 * amp ψ i + u.2.1 * amp ψ (i + 2 ^ q)

/-- Modelled from the spec: CNOT — when the control bit of the basis index is
set, the amplitude is taken from the index with the target bit flipped. -/
def applyCX (c t : ℕ) (ψ : List QC) : List QC :=
  (List.range ψ.length).map fun i =>
    if Nat.testBit i c then amp ψ (i ^^^ 2 ^ t) else amp ψ i

/-- Modelled from the spec: Controlled-Z — negate the amplitude of every basis
index whose control and target bits are both set. -/
def applyCZ (c t : ℕ) (ψ : List QC) : List QC :=
  (List.range ψ.length).map fun i =>
    if Nat.testBit i c && Nat.testBit i t then -amp ψ i else amp ψ i

/-- Dispatch one gate to its application function. -/
def applyGate : MGate → List QC → List QC
  | .single g q, ψ => applySingle g q ψ
  | .cx c t, ψ => applyCX c t ψ
  | .cz c t, ψ => applyCZ c t ψ

/-- Modelled from the spec: the State Simulator (§4.2) — fold the ordered gate
list over the initial state. -/
def stateSimulator (n : ℕ) (gs : List MGate) : List QC :=
  gs.foldl (fun ψ g => applyGate g ψ) (initState n)

/-- Modelled from the spec: the Density Matrix Builder (§4.3) —
`ρ[j][k] = ψ[j] · conj ψ[k]`, the outer product entry. -/
def densityEntry (ψ : List QC) (j k : ℕ) : QC := amp ψ j * QC.conj (amp ψ k)

/-- Modelled from the spec: `idx` of §4.4 — build a full basis index from the
bit `bit` of qubit `q` and the assignment `s` of the `n-1` spectator qubits
(the bits of `s` below position `q` sit below bit `q`, the rest above it). -/
def specIdx (q : ℕ) (bit : Bool) (s : ℕ) : ℕ :=
  s % 2 ^ q + (if bit then 2 ^ q else 0) + s / 2 ^ q * 2 ^ (q + 1)

/-- Modelled from the spec: the Partial Trace Engine (§4.4) — entry `(a,b)` of
the reduced 2×2 matrix of qubit `q`, summing `ρ[idx(a,s), idx(b,s)]` over every
assignment `s` of the spectator qubits. -/
def partialTrace (n q : ℕ) (ψ : List QC) (a b : Bool) : QC :=
  ((List.range (2 ^ (n - 1))).map fun s =>
    densityEntry ψ (specIdx q a s) (specIdx q b s)).sum

/-- Modelled from the spec: the Bloch Projector (§4.5) — Pauli expectation
values `x = Tr(ρσx)`, `y = Tr(ρσy)`, `z = Tr(ρσz)` of a reduced matrix. -/
def blochProjector (r : Bool → Bool → QC) : QC × QC × QC :=
  (r false true + r true false,
   QC.I * (r false true - r true false),
   r false false - r true true)

/-- The whole per-qubit pipeline: simulate, reduce qubit `q`, project. -/
def blochOfCircuit (n : ℕ) (gs : List MGate) (q : ℕ) : QC × QC × QC :=
  blochProjector (partialTrace n q (stateSimulator n gs))

/-- Semantic equality of a Bloch triple with a target triple. -/
def blochBeq (v w : QC × QC × QC) : Bool :=
  QC.beq v.1 w.1 && QC.beq v.2.1 w.2.1 && QC.beq v.2.2 w.2.2

/-- The Bell-state circuit `{num_qubits: 2, gates: [h 0, cx 0 1]}`. -/
def bellGates : List MGate := [.single .h 0, .cx 0 1]

end QSim

/-- JS strings modelled as lists of characters. -/
abbrev JStr := List Char

namespace Builder

/-- The two arities a catalog gate can have (`type: 'single'` / `type: 'two'`
in `availableGates`). -/
inductive GType where
  | single
  | two
deriving DecidableEq, Repr

/-- One entry of the `availableGates` catalog object in `CircuitBuilder.js`. -/
structure GateInfo where
  name : String
  symbol : String
  gtype : GType
  hasAngle : Bool
deriving DecidableEq, Repr

/-- The `availableGates` catalog of `CircuitBuilder.js`, key by key. -/
def availableGates : List (JStr × GateInfo) :=
  [(['h'], ⟨"Hadamard", "H", .single, false⟩),
   (['x'], ⟨"Pauli-X", "X", .single, false⟩),
   (['y'], ⟨"Pauli-Y", "Y", .single, false⟩),
   (['z'], ⟨"Pauli-Z", "Z", .single, false⟩),
   (['r', 'x'], ⟨"Rotation-X", "Rx", .single, true⟩),
   (['r', 'y'], ⟨"Rotation-Y", "Ry", .single, true⟩),
   (['r', 'z'], ⟨"Rotation-Z", "Rz", .single, true⟩),
   (['c', 'x'], ⟨"CNOT", "⊕", .two, false⟩),
   (['c', 'z'], ⟨"Controlled-Z", "CZ", .two, false⟩)]

/-- `availableGates[selectedGate]`. -/
def lookupGate (k : JStr) : Option GateInfo := availableGates.lookup k

/-- A gate object as `addGate` builds it: `{type, qubit}` with an optional
`angle`, or `{type, control, target}`.  Angles are carried as the decimal
literal of the slider's float value. -/
inductive GateB where
  | single (ty : JStr) (qubit : ℕ) (angle : Option JStr)
  | two (ty : JStr) (control target : ℕ)
deriving DecidableEq, Repr

/-- The `CircuitBuilder` component state: the `useState` hooks of the file. -/
structure BState where
  numQubits : ℕ
  gates : List GateB
  selectedGate : JStr
  selectedQubit : ℕ
  selectedControl : ℕ
  selectedTarget : ℕ
  rotationAngle : JStr
deriving DecidableEq, Repr

/-- `addGate` of `CircuitBuilder.js`: looks the selected gate up in the
catalog; for a single-qubit gate appends `{type, qubit}` plus `angle` when the
catalog marks `hasAngle`; for a two-qubit gate with equal control and target it
alerts and returns without appending; otherwise appends
`{type, control, target}`.  (A key outside the catalog would throw in JS; it is
unreachable because the select's options are exactly the catalog keys, and is
modelled as a no-op.) -/
def addGate (st : BState) : BState :=
  match lookupGate st.selectedGate with
  | none => st
  | some info =>
    match info.gtype with
    | .single =>
      let g := GateB.single st.selectedGate st.selectedQubit
        (if info.hasAngle then some st.rotationAngle else none)
      { st with gates := st.gates ++ [g] }
    | .two =>
      if st.selectedControl = st.selectedTarget then st
      else
        { st with gates :=
            st.gates ++ [GateB.two st.selectedGate st.selectedControl st.selectedTarget] }

/-- `gates.filter((_, i) => i !== index)`: keep every position except `i`. -/
def removeIdxJS {α : Type} (i : ℕ) (l : List α) : List α :=
  (l.enum.filter (fun p => p.1 != i)).map Prod.snd

/-- `removeGate` of `CircuitBuilder.js`. -/
def removeGate (i : ℕ) (st : BState) : BState :=
  { st with gates := removeIdxJS i st.gates }

/-- `clearCircuit` of `CircuitBuilder.js`. -/
def clearCircuit (st : BState) : BState := { st with gates := [] }

/-- The local `examples` object inside `loadExampleCircuit` of
`CircuitBuilder.js`, key by key. -/
def examples : List (JStr × (ℕ × List GateB)) :=
  [(['b', 'e', 'l', 'l'],
      (2, [.single ['h'] 0 none, .two ['c', 'x'] 0 1])),
   (['g', 'h', 'z'],
      (3, [.single ['h'] 0 none, .two ['c', 'x'] 0 1, .two ['c', 'x'] 1 2])),
   (['s', 'u', 'p', 'e', 'r', 'p', 'o', 's', 'i', 't', 'i', 'o', 'n'],
      (1, [.single ['h'] 0 none]))]

/-- `loadExampleCircuit` of `CircuitBuilder.js`: when the name is known, set
exactly the example's qubit count and gate list. -/
def loadExampleCircuit (k : JStr) (st : BState) : BState :=
  match examples.lookup k with
  | some e => { st with numQubits := e.1, gates := e.2 }
  | none => st

/-- The option values of the qubit-count select (`[1, 2, 3, 4, 5].map(...)`). -/
def numQubitsOptions : List ℕ := [1, 2, 3, 4, 5]

/-- One event the `CircuitBuilder` component handles: either a user
interaction with its own controls, or the `useEffect([initialCircuit])` sync of
`CircuitBuilder.js` (lines 32–37), which runs
`setNumQubits(initialCircuit.num_qubits); setGates(initialCircuit.gates || [])`
whenever App's `currentCircuit` prop changes.  That prop can be a circuit
imported from a file, which is never validated, so `syncInitial` carries an
arbitrary qubit count and gate list.  The two select events carry the proof
that the DOM can only deliver one of the rendered option values. -/
inductive BEvent where
  | selectNumQubits (n : ℕ) (h : n ∈ numQubitsOptions)
  | selectGate (k : JStr) (h : (lookupGate k).isSome)
  | selectQubit (n : ℕ)
  | selectControl (n : ℕ)
  | selectTarget (n : ℕ)
  | setAngle (v : JStr)
  | add
  | remove (i : ℕ)
  | clear
  | loadExample (k : JStr)
  | syncInitial (nq : ℕ) (gs : List GateB)

/-- The state update each event performs in `CircuitBuilder.js`; the
`syncInitial` case is the `useEffect([initialCircuit])` body. -/
def stepB : BEvent → BState → BState
  | .selectNumQubits n _, st => { st with numQubits := n }
  | .selectGate k _, st => { st with selectedGate := k }
  | .selectQubit n, st => { st with selectedQubit := n }
  | .selectControl n, st => { st with selectedControl := n }
  | .selectTarget n, st => { st with selectedTarget := n }
  | .setAngle v, st => { st with rotationAngle := v }
  | .add, st => addGate st
  | .remove i, st => removeGate i st
  | .clear, st => clearCircuit st
  | .loadExample k, st => loadExampleCircuit k st
  | .syncInitial nq gs, st => { st with numQubits := nq, gates := gs }

/-- Whether an event keeps the qubit count in range on its own: every builder
control does, and an `initialCircuit` sync does exactly when the circuit it
copies in has `num_qubits` in [1,5] — which fails for an out-of-range imported
circuit. -/
def syncBounded : BEvent → Bool
  | .syncInitial nq _ => decide (1 ≤ nq ∧ nq ≤ 5)
  | _ => true

/-- The initial `useState` values of `CircuitBuilder.js`
(`Math.PI / 2` written as its decimal float literal). -/
def initB : BState := ⟨2, [], ['h'], 0, 0, 1, "1.5707963267948966".toList⟩

/-- A whole interaction history, run from the initial builder state. -/
def runB (evs : List BEvent) : BState := evs.foldl (fun st e => stepB e st) initB

/-- The rotation-gate keys (`hasAngle` in the catalog). -/
def rotationKeys : List JStr := [['r', 'x'], ['r', 'y'], ['r', 'z']]

end Builder

namespace JsonM

mutual

/-- A JS value in the fragment JSON.parse can produce.  Numbers are modelled by
their exact decimal literal (every JS float prints as such a literal in the
range the app uses). -/
inductive Json where
  | null
  | bool (b : Bool)
  | num (lit : JStr)
  | str (s : JStr)
  | arr (xs : JArr)
  | obj (kvs : JObj)
deriving Repr

/-- A JS array of `Json` values. -/
inductive JArr where
  | nil
  | cons (hd : Json) (tl : JArr)
deriving Repr

/-- A JS object: an ordered list of key/value fields. -/
inductive JObj where
  | nil
  | cons (key : JStr) (val : Json) (tl : JObj)
deriving Repr

end

/-- `n` levels of the two-space indentation `JSON.stringify(·, null, 2)`
uses. -/
def indent (n : ℕ) : JStr := List.replicate (2 * n) ' '

mutual

/-- `JSON.stringify(v, null, 2)` at nesting depth `d`: the serialisation
`exportCircuit` writes (`App.js`), including its newline-and-indent layout. -/
def printVal (d : ℕ) : Json → JStr
  | .null => 'n' :: ['u', 'l', 'l']
  | .bool true => 't' :: ['r', 'u', 'e']
  | .bool false => 'f' :: ['a', 'l', 's', 'e']
  | .num lit => lit
  | .str s => '"' :: s ++ ['"']
  | .arr .nil => ['[', ']']
  | .arr (.cons x xs) =>
      '[' :: '\n' :: indent (d + 1) ++ printChain (d + 1) (.cons x xs) ++
        '\n' :: indent d ++ [']']
  | .obj .nil => ['\x7b', '\x7d']
  | .obj (.cons k v kvs) =>
      '\x7b' :: '\n' :: indent (d + 1) ++ printFields (d + 1) (.cons k v kvs) ++
        '\n' :: indent d ++ ['\x7d']

/-- The comma-and-newline separated items of a non-empty array (each item after
the first preceded by the depth-`d` indentation). -/
def printChain (d : ℕ) : JArr → JStr
  | .nil => []
  | .cons x .nil => printVal d x
  | .cons x (.cons y ys) =>
      printVal d x ++ ',' :: '\n' :: indent d ++ printChain d (.cons y ys)

/-- The comma-and-newline separated `"key": value` fields of a non-empty
object. -/
def printFields (d : ℕ) : JObj → JStr
  | .nil => []
  | .cons k v .nil => '"' :: k ++ '"' :: ':' :: ' ' :: printVal d v
  | .cons k v (.cons k2 v2 fs) =>
      '"' :: k ++ '"' :: ':' :: ' ' :: printVal d v ++
        ',' :: '\n' :: indent d ++ printFields d (.cons k2 v2 fs)

end

/-- The JSON whitespace characters. -/
def isWs (c : Char) : Bool := c == ' ' || c == '\t' || c == '\n' || c == '\r'

/-- Drop leading JSON whitespace. -/
def skipWs : JStr → JStr
  | [] => []
  | c :: cs => if isWs c then skipWs cs else c :: cs

/-- The value of a hexadecimal digit, for `\u` escapes. -/
def hexVal (c : Char) : Option ℕ :=
  if c.isDigit then some (c.toNat - 48)
  else if 'a' ≤ c && c ≤ 'f' then some (c.toNat - 87)
  else if 'A' ≤ c && c ≤ 'F' then some (c.toNat - 55)
  else none

/-- The single-character JSON string escapes, as the table mapping the
character after the backslash to the character it denotes. -/
def escPairs : List (Char × Char) :=
  [('"', '"'), ('\\', '\\'), ('/', '/'), ('b', '\x08'), ('f', '\x0c'),
   ('n', '\n'), ('r', '\r'), ('t', '\t')]

/-- Look one escape up in the table. -/
def escChar (c : Char) : Option Char := escPairs.lookup c

/-- Scan a JSON string body (the opening quote already consumed): return the
decoded characters and the input after the closing quote. -/
def parseStrChars : JStr → Option (JStr × JStr)
  | [] => none
  | c :: cs =>
    if c == '"' then some ([], cs)
    else if c == '\\' then
      match cs with
      | [] => none
      | e :: cs2 =>
        if e == 'u' then
          match cs2 with
          | h1 :: h2 :: h3 :: h4 :: cs3 =>
            match hexVal h1, hexVal h2, hexVal h3, hexVal h4 with
            | some a, some b, some c4, some d4 =>
              (parseStrChars cs3).map fun r =>
                (Char.ofNat (((a * 16 + b) * 16 + c4) * 16 + d4) :: r.1, r.2)
            | _, _, _, _ => none
          | _ => none
        else
          match escChar e with
          | some ec => (parseStrChars cs2).map fun r => (ec :: r.1, r.2)
          | none => none
    else if c.toNat < 32 then none
    else (parseStrChars cs).map fun r => (c :: r.1, r.2)

/-- Whether the input starts with a decimal digit. -/
def headDigit (s : JStr) : Bool :=
  match s with
  | [] => false
  | c :: _ => c.isDigit

/-- The sign and integer part of a JSON number literal (JSON forbids leading
zeros: after an initial `0` no further digit may follow). -/
def parseIntPart : JStr → Option (JStr × JStr)
  | [] => none
  | c :: cs =>
    if c == '-' then
      match parseIntPart cs with
      | some r =>
        if r.1.headD ' ' == '-' then none else some ('-' :: r.1, r.2)
      | none => none
    else if c == '0' then
      if headDigit cs then none else some (['0'], cs)
    else if c.isDigit then
      some (c :: cs.takeWhile Char.isDigit, cs.dropWhile Char.isDigit)
    else none

/-- The optional fraction part `.digits` of a JSON number literal. -/
def parseFracPart : JStr → Option (JStr × JStr)
  | [] => some ([], [])
  | c :: cs =>
    if c == '.' then
      if (cs.takeWhile Char.isDigit).isEmpty then none
      else some ('.' :: cs.takeWhile Char.isDigit, cs.dropWhile Char.isDigit)
    else some ([], c :: cs)

/-- The optional exponent part `e[+-]digits` of a JSON number literal. -/
def parseExpPart : JStr → Option (JStr × JStr)
  | [] => some ([], [])
  | c :: cs =>
    if c == 'e' || c == 'E' then
      match cs with
      | [] => none
      | s1 :: cs2 =>
        if s1 == '+' || s1 == '-' then
          if (cs2.takeWhile Char.isDigit).isEmpty then none
          else some (c :: s1 :: cs2.takeWhile Char.isDigit, cs2.dropWhile Char.isDigit)
        else
          if (cs.takeWhile Char.isDigit).isEmpty then none
          else some (c :: cs.takeWhile Char.isDigit, cs.dropWhile Char.isDigit)
    else some ([], c :: cs)

/-- A whole JSON number literal: sign and integer part, then optional fraction
and exponent; returns the literal's characters and the rest of the input. -/
def parseNumLit (s : JStr) : Option (JStr × JStr) :=
  (parseIntPart s).bind fun i =>
    (parseFracPart i.2).bind fun f =>
      (parseExpPart f.2).map fun e =>
        (i.1 ++ f.1 ++ e.1, e.2)

/-- Whether the input starts with the given character. -/
def headIs (s : JStr) (c : Char) : Bool :=
  match s with
  | [] => false
  | a :: _ => a == c

/-- The input cannot extend a preceding number literal: it is empty or starts
with a character no part of a JSON number may begin with. -/
def numStop (s : JStr) : Bool :=
  match s with
  | [] => true
  | c :: _ =>
    !(c.isDigit || c == '.' || c == 'e' || c == 'E' || c == '+' || c == '-')

mutual

/-- Fuel-bounded `JSON.parse` of one value; the input starts at a
non-whitespace character.  Faithful to the JSON grammar: literals, strings
with escapes, strict number syntax, arrays and objects without trailing
commas. -/
def parseVal : ℕ → JStr → Option (Json × JStr)
  | 0, _ => none
  | _ + 1, [] => none
  | fuel + 1, c :: cs =>
    if c == 'n' then
      match cs with
      | 'u' :: 'l' :: 'l' :: r => some (.null, r)
      | _ => none
    else if c == 't' then
      match cs with
      | 'r' :: 'u' :: 'e' :: r => some (.bool true, r)
      | _ => none
    else if c == 'f' then
      match cs with
      | 'a' :: 'l' :: 's' :: 'e' :: r => some (.bool false, r)
      | _ => none
    else if c == '"' then
      (parseStrChars cs).map fun r => (.str r.1, r.2)
    else if c == '[' then
      let s' := skipWs cs
      if headIs s' ']' then some (.arr .nil, s'.tail)
      else (parseArrRest fuel s').map fun r => (.arr r.1, r.2)
    else if c == '\x7b' then
      let s' := skipWs cs
      if headIs s' '\x7d' then some (.obj .nil, s'.tail)
      else (parseObjRest fuel s').map fun r => (.obj r.1, r.2)
    else if c == '-' || c.isDigit then
      (parseNumLit (c :: cs)).map fun r => (.num r.1, r.2)
    else none

/-- Parse the items of a non-empty array: a value, then either `]` or a comma
and further items. -/
def parseArrRest : ℕ → JStr → Option (JArr × JStr)
  | 0, _ => none
  | fuel + 1, s =>
    (parseVal fuel s).bind fun r =>
      let t := skipWs r.2
      if headIs t ']' then some (.cons r.1 .nil, t.tail)
      else if headIs t ',' then
        (parseArrRest fuel (skipWs t.tail)).map fun r3 => (.cons r.1 r3.1, r3.2)
      else none

/-- Parse the fields of a non-empty object: a quoted key, `:`, a value, then
either `}` or a comma and further fields. -/
def parseObjRest : ℕ → JStr → Option (JObj × JStr)
  | 0, _ => none
  | fuel + 1, s =>
    match s with
    | '"' :: s1 =>
      (parseStrChars s1).bind fun k =>
        let t := skipWs k.2
        if headIs t ':' then
          (parseVal fuel (skipWs t.tail)).bind fun v =>
            let t2 := skipWs v.2
            if headIs t2 '\x7d' then some (.cons k.1 v.1 .nil, t2.tail)
            else if headIs t2 ',' then
              (parseObjRest fuel (skipWs t2.tail)).map fun fs =>
                (.cons k.1 v.1 fs.1, fs.2)
            else none
        else none
    | _ => none

end

/-- `JSON.parse`: skip leading whitespace, parse one value, require that only
whitespace remains. -/
def parseJson (s : JStr) : Option Json :=
  match parseVal (s.length + 1) (skipWs s) with
  | some (v, r) => if skipWs r == [] then some v else none
  | none => none

mutual

/-- Fuel sufficient for `parseVal` on the printed form of a value. -/
def needV : Json → ℕ
  | .null | .bool _ | .num _ | .str _ => 1
  | .arr a => 1 + needA a
  | .obj o => 1 + needO o

/-- Fuel sufficient for `parseArrRest` on a printed item chain. -/
def needA : JArr → ℕ
  | .nil => 1
  | .cons x xs => 1 + needV x + needA xs

/-- Fuel sufficient for `parseObjRest` on a printed field chain. -/
def needO : JObj → ℕ
  | .nil => 1
  | .cons _ v fs => 1 + needV v + needO fs

end

/-- Characters allowed verbatim in the strings the app serialises: printable,
not a quote, not a backslash (so printing needs no escapes). -/
def plainChar (c : Char) : Bool := 32 ≤ c.toNat && c != '"' && c != '\\'

mutual

/-- Well-formedness of a value for the print/parse round trip: every number is
a fully-consumed JSON number literal and every string needs no escaping. -/
def WfV : Json → Bool
  | .null | .bool _ => true
  | .num lit => parseNumLit lit == some (lit, [])
  | .str s => s.all plainChar
  | .arr a => WfA a
  | .obj o => WfO o

/-- Well-formedness of every element of an array. -/
def WfA : JArr → Bool
  | .nil => true
  | .cons x xs => WfV x && WfA xs

/-- Well-formedness of every key and value of an object. -/
def WfO : JObj → Bool
  | .nil => true
  | .cons k v fs => k.all plainChar && WfV v && WfO fs

end

end JsonM

namespace AppM

open JsonM

/-- JS object field access, JSON semantics: with duplicate keys the last
occurrence wins (as `JSON.parse` builds the object). -/
def objLookup : JObj → JStr → Option Json
  | .nil, _ => none
  | .cons key v tl, k =>
    match objLookup tl k with
    | some r => some r
    | none => if key == k then some v else none

/-- `value.field`: `undefined` (`none`) unless `value` is an object with the
field. -/
def getField : Json → JStr → Option Json
  | .obj o, k => objLookup o k
  | _, _ => none

/-- Length of a JS array. -/
def jarrLength : JArr → ℕ
  | .nil => 0
  | .cons _ tl => jarrLength tl + 1

/-- `value.length`: defined for arrays and strings, `undefined` otherwise. -/
def jsLength : Json → Option ℕ
  | .arr a => some (jarrLength a)
  | .str s => some s.length
  | _ => none

/-- Whether a number literal denotes zero (all mantissa digits are `0`). -/
def numLitZero (lit : JStr) : Bool :=
  (lit.takeWhile fun c => c != 'e' && c != 'E').all fun c => !c.isDigit || c == '0'

/-- JS falsiness of a JSON value (`null`, `false`, `0`, `""`). -/
def jsFalsy : Json → Bool
  | .null => true
  | .bool b => !b
  | .str s => s.isEmpty
  | .num lit => numLitZero lit
  | _ => false

/-- JS truthiness. -/
def jsTruthy (j : Json) : Bool := !jsFalsy j

/-- The field keys used by the app. -/
def numQubitsKey : JStr := "num_qubits".toList

/-- The `gates` key. -/
def gatesKey : JStr := "gates".toList

/-- The `error` key of a response body. -/
def errorKey : JStr := "error".toList

/-- The `type` key of a gate object. -/
def typeKey : JStr := "type".toList

/-- The `qubit` key of a single-qubit gate object. -/
def qubitKey : JStr := "qubit".toList

/-- The `angle` key of a rotation gate object. -/
def angleKey : JStr := "angle".toList

/-- The `control` key of a two-qubit gate object. -/
def controlKey : JStr := "control".toList

/-- The `target` key of a two-qubit gate object. -/
def targetKey : JStr := "target".toList

/-- `!circuit.gates || circuit.gates.length === 0`, the early-return guard of
`processCircuit` in `App.js` (`undefined === 0` is false, so a `gates` value
without a length fails the second test). -/
def gatesEmpty (c : Json) : Bool :=
  match getField c gatesKey with
  | none => true
  | some g => jsFalsy g || (jsLength g == some 0)

/-- The `App` component state: the `useState` hooks of `App.js`. -/
structure AppState where
  currentCircuit : Json
  quantumStates : Option Json
  errorMsg : Option JStr
  isLoading : Bool
deriving Repr

/-- What `response.json()` yielded: a parsed body, or a rejection. -/
inductive BodyOutcome where
  | parseFail (msg : JStr)
  | parsed (j : Json)

/-- The outcome of the `fetch` call in `processCircuit`: a network-level
rejection, or a response with its `ok` flag, status code and body. -/
inductive FetchOutcome where
  | netErr (msg : JStr)
  | resp (ok : Bool) (status : ℕ) (body : BodyOutcome)

/-- The message prefix of the `catch` block of `processCircuit`. -/
def failPrefix : JStr := "Failed to process circuit: ".toList

/-- The message thrown on a non-ok response, status interpolated. -/
def httpErrMsg (status : ℕ) : JStr :=
  "HTTP error! status: ".toList ++ (Nat.repr status).toList

/-- The error message of `importCircuit`'s catch block. -/
def invalidFileMsg : JStr := "Invalid circuit file format".toList

/-- `String(result.error)`, the message of `new Error(result.error)` (composite
values approximated by their JSON text; the claims only use string errors). -/
def errString : Json → JStr
  | .str s => s
  | j => printVal 0 j

/-- `processCircuit` of `App.js`, one call: returns the new component state
and, when a request was issued, the submitted circuit.  With an empty (or
missing, or falsy) gate list it clears `quantumStates` and returns before
fetching.  Otherwise it fetches; a non-ok status throws, a body whose `error`
field is truthy throws, and the `catch` block records the message — only the
success path stores the result in `quantumStates`. -/
def processCircuit (c : Json) (out : FetchOutcome) (st : AppState) :
    AppState × Option Json :=
  if gatesEmpty c then ({ st with quantumStates := none }, none)
  else
    let st1 := { st with isLoading := true, errorMsg := none }
    let fail := fun (m : JStr) =>
      ({ st1 with errorMsg := some (failPrefix ++ m), isLoading := false }, some c)
    match out with
    | .netErr m => fail m
    | .resp ok status body =>
      if ok = false then fail (httpErrMsg status)
      else
        match body with
        | .parseFail m => fail m
        | .parsed j =>
          match getField j errorKey with
          | some e =>
            if jsTruthy e then fail (errString e)
            else ({ st1 with quantumStates := some j, isLoading := false }, some c)
          | none => ({ st1 with quantumStates := some j, isLoading := false }, some c)

/-- Result of `handleCircuitChange`: the new state plus whether a (debounced)
processing request was scheduled, or a thrown `TypeError`
(`circuit.gates.length` with `gates` absent or null). -/
inductive HCCResult where
  | ok (st : AppState) (scheduled : Bool)
  | threw (st : AppState)

/-- `handleCircuitChange` of `App.js`: store the circuit, then schedule
debounced processing when `circuit.gates.length > 0`, else clear
`quantumStates` (an undefined `.length` compares false with `> 0`). -/
def handleCircuitChange (c : Json) (st : AppState) : HCCResult :=
  let st1 := { st with currentCircuit := c }
  match getField c gatesKey with
  | none => .threw st1
  | some .null => .threw st1
  | some g =>
    if (jsLength g).getD 0 > 0 then .ok st1 true
    else .ok { st1 with quantumStates := none } false

/-- `exportCircuit` of `App.js`: the file content is
`JSON.stringify(currentCircuit, null, 2)`. -/
def exportCircuit (st : AppState) : JStr := printVal 0 st.currentCircuit

/-- `importCircuit` of `App.js` on a read file: `JSON.parse` the content; on
failure record `Invalid circuit file format` and touch nothing else; on
success store the parsed value as the current circuit and process it. -/
def importCircuit (content : JStr) (out : FetchOutcome) (st : AppState) :
    AppState × Option Json :=
  match parseJson content with
  | none => ({ st with errorMsg := some invalidFileMsg }, none)
  | some circuit =>
    processCircuit circuit out { st with currentCircuit := circuit }

/-- The initial `App` state: `{num_qubits: 2, gates: []}`, no states, no
error, not loading. -/
def initApp : AppState :=
  ⟨.obj (.cons numQubitsKey (.num ['2']) (.cons gatesKey (.arr .nil) .nil)),
    none, none, false⟩

/-- Decimal literal of a natural number (how a JS integer prints). -/
def natLit (n : ℕ) : JStr := (Nat.repr n).toList

/-- The JSON value of a builder gate object, fields in insertion order. -/
def gateJson : Builder.GateB → Json
  | .single ty q a =>
    .obj (.cons typeKey (.str ty) (.cons qubitKey (.num (natLit q))
      (match a with
       | some v => .cons angleKey (.num v) .nil
       | none => .nil)))
  | .two ty c t =>
    .obj (.cons typeKey (.str ty) (.cons controlKey (.num (natLit c))
      (.cons targetKey (.num (natLit t)) .nil)))

/-- The JSON array of a builder gate list. -/
def gatesJson : List Builder.GateB → JArr
  | [] => .nil
  | g :: gs => .cons (gateJson g) (gatesJson gs)

/-- The circuit object `{num_qubits, gates}` the builder reports to the app
(`useEffect` of `CircuitBuilder.js`), which `handleCircuitChange` then submits
to processing. -/
def circuitJson (st : Builder.BState) : Json :=
  .obj (.cons numQubitsKey (.num (natLit st.numQubits))
    (.cons gatesKey (.arr (gatesJson st.gates)) .nil))

/-- The integer value of a plain (integral, unsigned or negated) decimal
literal. -/
def numLitIntVal (cs : JStr) : Option ℤ :=
  match cs with
  | '-' :: ds =>
    if ds ≠ [] ∧ ds.all Char.isDigit then
      some (-(ds.foldl (fun a c => a * 10 + (c.toNat - 48)) 0 : ℕ))
    else none
  | ds =>
    if ds ≠ [] ∧ ds.all Char.isDigit then
      some ((ds.foldl (fun a c => a * 10 + (c.toNat - 48)) 0 : ℕ))
    else none

/-- The property C3 asserts of a submitted circuit: its `num_qubits` field is
an integer in `[1, 5]`. -/
def submittedNumQubitsOk (sub : Json) : Prop :=
  match getField sub numQubitsKey with
  | some (.num l) =>
    match numLitIntVal l with
    | some n => 1 ≤ n ∧ n ≤ 5
    | none => False
  | _ => False

end AppM

namespace Examples

open JsonM

/-- The builder state after loading the local `bell` example. -/
def bellState : Builder.BState :=
  Builder.loadExampleCircuit "bell".toList Builder.initB

/-- The Bell circuit as the builder reports it to the app. -/
def bellCircuit : Json := AppM.circuitJson bellState

/-- A response body `{"error": ""}`: it contains an `error` field, but the
field is falsy. -/
def emptyErrorBody : Json := .obj (.cons AppM.errorKey (.str []) .nil)

/-- An import file with six qubits more than the selector offers:
`{"num_qubits": 7, "gates": [{"type": "h", "qubit": 0}]}`. -/
def badImportStr : JStr :=
  "\x7b\"num_qubits\": 7, \"gates\": [\x7b\"type\": \"h\", \"qubit\": 0\x7d]\x7d".toList

/-- The circuit value `JSON.parse` produces from `badImportStr`. -/
def badCircuit : Json :=
  .obj (.cons AppM.numQubitsKey (.num ['7'])
    (.cons AppM.gatesKey (.arr (.cons (.obj (.cons AppM.typeKey (.str ['h'])
      (.cons AppM.qubitKey (.num ['0']) .nil))) .nil)) .nil))

/-- A builder state with the CNOT gate selected and control = target = 1. -/
def cxBlockedState : Builder.BState := ⟨2, [], ['c', 'x'], 0, 1, 1, ['1']⟩

/-- A builder state with the Rx gate selected. -/
def rxState : Builder.BState := ⟨2, [], ['r', 'x'], 0, 0, 1, ['1', '.', '5']⟩

/-- A file content that is not JSON. -/
def notJsonStr : JStr := "not a circuit".toList

/-- A failed fetch outcome: HTTP 500. -/
def failedOutcome : AppM.FetchOutcome := .resp false 500 (.parseFail [])

end Examples

theorem filter_enumFrom_gt {α : Type} (l : List α) :
    ∀ (m j : ℕ), j < m →
      ((List.enumFrom m l).filter (fun p => p.1 != j)).map Prod.snd = l := by
  induction l with
  | nil => intro m j _; rfl
  | cons a l ih =>
    intro m j hj
    have hne : (m != j) = true := by simp [Nat.ne_of_gt hj]
    simp only [List.enumFrom, List.filter_cons, hne, if_true, List.map_cons]
    rw [ih (m + 1) j (Nat.lt_succ_of_lt hj)]

theorem filter_enumFrom_eraseIdx {α : Type} (l : List α) :
    ∀ (n i : ℕ),
      ((List.enumFrom n l).filter (fun p => p.1 != n + i)).map Prod.snd =
        l.eraseIdx i := by
  induction l with
  | nil => intro n i; rfl
  | cons a l ih =>
    intro n i
    cases i with
    | zero =>
      have hne : (n != n + 0) = false := by simp
      simp only [List.enumFrom, List.filter_cons, hne]
      simpa using filter_enumFrom_gt l (n + 1) (n + 0) (by omega)
    | succ i =>
      have hne : (n != n + (i + 1)) = true := by simp
      simp only [List.enumFrom, List.filter_cons, hne, if_true, List.map_cons,
        List.eraseIdx_cons_succ]
      have harith : n + (i + 1) = (n + 1) + i := by omega
      rw [harith, ih (n + 1) i]

namespace Builder

theorem removeIdxJS_eq_eraseIdx {α : Type} (i : ℕ) (l : List α) :
    removeIdxJS i l = l.eraseIdx i := by
  have h := filter_enumFrom_eraseIdx l 0 i
  simpa [removeIdxJS, List.enum] using h

theorem addGate_blocked (st : BState) (info : GateInfo)
    (hl : lookupGate st.selectedGate = some info) (ht : info.gtype = .two)
    (he : st.selectedControl = st.selectedTarget) : addGate st = st := by
  simp only [addGate, hl, ht, if_pos he]

theorem addGate_no_equal_pair (st : BState) (ty : JStr) (c t : ℕ)
    (hmem : GateB.two ty c t ∈ (addGate st).gates)
    (hnew : GateB.two ty c t ∉ st.gates) : c ≠ t := by
  rcases h : lookupGate st.selectedGate with _ | info
  · simp only [addGate, h] at hmem
    exact absurd hmem hnew
  · rcases hg : info.gtype with _ | _
    · simp only [addGate, h, hg, List.mem_append, List.mem_singleton] at hmem
      rcases hmem with hmem | hmem
      · exact absurd hmem hnew
      · exact absurd hmem (by simp)
    · by_cases he : st.selectedControl = st.selectedTarget
      · rw [addGate_blocked st info h hg he] at hmem
        exact absurd hmem hnew
      · simp only [addGate, h, hg, if_neg he, List.mem_append,
          List.mem_singleton] at hmem
        rcases hmem with hmem | hmem
        · exact absurd hmem hnew
        · injection hmem with h1 h2 h3
          subst h2
          subst h3
          exact he

theorem addGate_appends (st : BState) :
    ∃ tl : List GateB, tl.length ≤ 1 ∧ (addGate st).gates = st.gates ++ tl := by
  rcases h : lookupGate st.selectedGate with _ | info
  · exact ⟨[], by simp, by simp only [addGate, h]; simp⟩
  · rcases hg : info.gtype with _ | _
    · exact ⟨[GateB.single st.selectedGate st.selectedQubit
          (if info.hasAngle then some st.rotationAngle else none)],
        by simp, by simp only [addGate, h, hg]⟩
    · by_cases he : st.selectedControl = st.selectedTarget
      · exact ⟨[], by simp, by rw [addGate_blocked st info h hg he]; simp⟩
      · exact ⟨[GateB.two st.selectedGate st.selectedControl st.selectedTarget],
          by simp, by simp only [addGate, h, hg, if_neg he]⟩

theorem addGate_single_shape (st : BState) (info : GateInfo)
    (hl : lookupGate st.selectedGate = some info) (hs : info.gtype = .single) :
    (addGate st).gates = st.gates ++
      [GateB.single st.selectedGate st.selectedQubit
        (if st.selectedGate ∈ rotationKeys then some st.rotationAngle else none)] ∧
    (info.hasAngle = true ↔ st.selectedGate ∈ rotationKeys) := by
  obtain ⟨nq, gs, sg, sq, sc, stt, ra⟩ := st
  simp only [lookupGate, availableGates, List.lookup] at hl
  repeat' split at hl
  all_goals try exact Option.noConfusion hl
  all_goals
    injection hl with hinfo
    subst hinfo
  all_goals try exact absurd hs (by decide)
  all_goals
    rename_i heq
    have hk := eq_of_beq heq
    subst hk
    exact ⟨rfl, by simp [rotationKeys]⟩

theorem addGate_numQubits (st : BState) : (addGate st).numQubits = st.numQubits := by
  rcases h : lookupGate st.selectedGate with _ | info
  · simp only [addGate, h]
  · rcases hg : info.gtype with _ | _
    · simp only [addGate, hg, h]
    · by_cases he : st.selectedControl = st.selectedTarget
      · simp only [addGate, h, hg, if_pos he]
      · simp only [addGate, h, hg, if_neg he]

theorem examples_numQubits (k : JStr) (e : ℕ × List GateB)
    (h : examples.lookup k = some e) : 1 ≤ e.1 ∧ e.1 ≤ 5 := by
  simp only [examples, List.lookup] at h
  repeat' split at h
  all_goals first
    | exact Option.noConfusion h
    | (injection h with he; subst he; exact ⟨by decide, by decide⟩)

theorem loadExample_numQubits (k : JStr) (st : BState)
    (h : 1 ≤ st.numQubits ∧ st.numQubits ≤ 5) :
    1 ≤ (loadExampleCircuit k st).numQubits ∧
      (loadExampleCircuit k st).numQubits ≤ 5 := by
  rcases hk : examples.lookup k with _ | e
  · simp only [loadExampleCircuit, hk]
    exact h
  · simp only [loadExampleCircuit, hk]
    exact examples_numQubits k e hk

theorem stepB_numQubits (e : BEvent) (st : BState)
    (h : 1 ≤ st.numQubits ∧ st.numQubits ≤ 5)
    (he : syncBounded e = true) :
    1 ≤ (stepB e st).numQubits ∧ (stepB e st).numQubits ≤ 5 := by
  cases e with
  | selectNumQubits n hn =>
    simp only [numQubitsOptions, List.mem_cons, List.not_mem_nil, or_false] at hn
    simp only [stepB]
    omega
  | selectGate k hk => exact h
  | selectQubit n => exact h
  | selectControl n => exact h
  | selectTarget n => exact h
  | setAngle v => exact h
  | add => simpa only [stepB, addGate_numQubits] using h
  | remove i => exact h
  | clear => exact h
  | loadExample k => exact loadExample_numQubits k st h
  | syncInitial nq gs =>
    simp only [syncBounded, decide_eq_true_eq] at he
    simpa only [stepB] using he

theorem runB_numQubits (evs : List BEvent)
    (hs : evs.all syncBounded = true) :
    1 ≤ (runB evs).numQubits ∧ (runB evs).numQubits ≤ 5 := by
  suffices h : ∀ (l : List BEvent), l.all syncBounded = true → ∀ (st : BState),
      1 ≤ st.numQubits ∧ st.numQubits ≤ 5 →
      1 ≤ (l.foldl (fun s e => stepB e s) st).numQubits ∧
        (l.foldl (fun s e => stepB e s) st).numQubits ≤ 5 by
    exact h evs hs initB ⟨by decide, by decide⟩
  intro l
  induction l with
  | nil => intro _ st h; exact h
  | cons e l ih =>
    intro hall st h
    rw [List.all_cons, Bool.and_eq_true] at hall
    exact ih hall.2 (stepB e st) (stepB_numQubits e st h hall.1)

end Builder

namespace JsonM

theorem skipWs_not_ws_cons (c : Char) (s : JStr) (h : isWs c = false) :
    skipWs (c :: s) = c :: s := by
  simp [skipWs, h]

theorem skipWs_spaces (n : ℕ) (s : JStr) :
    skipWs (List.replicate n ' ' ++ s) = skipWs s := by
  induction n with
  | zero => rfl
  | succ n ih => simpa [skipWs, isWs] using ih

theorem skipWs_indent (d : ℕ) (s : JStr) : skipWs (indent d ++ s) = skipWs s :=
  skipWs_spaces (2 * d) s

theorem skipWs_all_spaces (w s : JStr) (h : w.all (fun c => c == ' ') = true) :
    skipWs (w ++ s) = skipWs s := by
  induction w with
  | nil => rfl
  | cons c cs ih =>
    simp only [List.all_cons, Bool.and_eq_true, beq_iff_eq] at h
    obtain ⟨h1, h2⟩ := h
    subst h1
    simpa [skipWs, isWs] using ih h2

theorem indent_all_spaces (d : ℕ) : (indent d).all (fun c => c == ' ') = true := by
  simp [indent, List.all_eq_true]

theorem parseStrChars_plain (s rest : JStr) (h : s.all plainChar = true) :
    parseStrChars (s ++ '"' :: rest) = some (s, rest) := by
  induction s with
  | nil =>
    simp only [List.nil_append]
    rw [parseStrChars.eq_def]
    simp
  | cons c cs ih =>
    simp only [List.all_cons, Bool.and_eq_true] at h
    obtain ⟨hc, hcs⟩ := h
    simp only [plainChar, Bool.and_eq_true, bne_iff_ne, ne_eq, decide_eq_true_eq] at hc
    obtain ⟨⟨h32, hq⟩, hb⟩ := hc
    have hq' : (c == '"') = false := by simp [hq]
    have hb' : (c == '\\') = false := by simp [hb]
    have hlt : ¬ c.toNat < 32 := by omega
    rw [List.cons_append, parseStrChars.eq_def]
    simp only [hq', hb', if_false, if_neg hlt]
    simp [ih hcs]

theorem takeWhile_all_append (p : Char → Bool) (t rest : JStr) (ht : t.all p = true)
    (hr : ∀ c, rest.head? = some c → p c = false) :
    (t ++ rest).takeWhile p = t ∧ (t ++ rest).dropWhile p = rest := by
  induction t with
  | nil =>
    simp only [List.nil_append]
    cases rest with
    | nil => exact ⟨rfl, rfl⟩
    | cons r rs =>
      have := hr r rfl
      constructor
      · simp [List.takeWhile_cons, this]
      · simp [List.dropWhile_cons, this]
  | cons a t ih =>
    simp only [List.all_cons, Bool.and_eq_true] at ht
    obtain ⟨ha, ht⟩ := ht
    obtain ⟨h1, h2⟩ := ih ht
    constructor
    · simp [List.takeWhile_cons, ha, h1]
    · simp [List.dropWhile_cons, ha, h2]

theorem all_takeWhile' (p : Char → Bool) (l : JStr) : (l.takeWhile p).all p = true := by
  induction l with
  | nil => rfl
  | cons a l ih =>
    by_cases h : p a = true
    · simp [List.takeWhile_cons, h, ih]
    · simp only [Bool.not_eq_true] at h
      simp [List.takeWhile_cons, h]

theorem head_dropWhile_false (p : Char → Bool) (l : JStr) :
    ∀ c, (l.dropWhile p).head? = some c → p c = false := by
  induction l with
  | nil => intro c h; simp at h
  | cons a l ih =>
    intro c h
    by_cases ha : p a = true
    · rw [List.dropWhile_cons, if_pos ha] at h
      exact ih c h
    · simp only [Bool.not_eq_true] at ha
      rw [List.dropWhile_cons, if_neg (by simp [ha])] at h
      simp only [List.head?_cons, Option.some.injEq] at h
      subst h
      exact ha

theorem span_digits_append (cs rest : JStr)
    (hr : cs.dropWhile Char.isDigit = [] → ∀ c, rest.head? = some c → c.isDigit = false) :
    (cs ++ rest).takeWhile Char.isDigit = cs.takeWhile Char.isDigit ∧
    (cs ++ rest).dropWhile Char.isDigit = cs.dropWhile Char.isDigit ++ rest := by
  have hsplit : cs.takeWhile Char.isDigit ++ cs.dropWhile Char.isDigit = cs :=
    List.takeWhile_append_dropWhile Char.isDigit cs
  have hhead : ∀ c, (cs.dropWhile Char.isDigit ++ rest).head? = some c → c.isDigit = false := by
    intro c hc
    cases hd : cs.dropWhile Char.isDigit with
    | nil =>
      rw [hd, List.nil_append] at hc
      exact hr hd c hc
    | cons d ds =>
      rw [hd, List.cons_append, List.head?_cons, Option.some.injEq] at hc
      subst hc
      have hh := head_dropWhile_false Char.isDigit cs
      rw [hd] at hh
      exact hh d rfl
  have := takeWhile_all_append Char.isDigit (cs.takeWhile Char.isDigit)
    (cs.dropWhile Char.isDigit ++ rest) (all_takeWhile' _ _) hhead
  rw [← List.append_assoc, hsplit] at this
  exact this

theorem numStop_head (rest : JStr) (h : numStop rest = true) :
    ∀ c, rest.head? = some c →
      c.isDigit = false ∧ (c == '.') = false ∧ (c == 'e') = false ∧
      (c == 'E') = false ∧ (c == '+') = false ∧ (c == '-') = false := by
  intro c hc
  cases rest with
  | nil => simp at hc
  | cons a s =>
    simp only [List.head?_cons, Option.some.injEq] at hc
    subst hc
    simp only [numStop, Bool.not_eq_true', Bool.or_eq_false_iff] at h
    exact ⟨h.1.1.1.1.1, h.1.1.1.1.2, h.1.1.1.2, h.1.1.2, h.1.2, h.2⟩

theorem parseIntPart_append (cs : JStr) : ∀ (l r rest : JStr),
    parseIntPart cs = some (l, r) → (r = [] → numStop rest = true) →
    parseIntPart (cs ++ rest) = some (l, r ++ rest) := by
  induction cs with
  | nil => intro l r rest h _; exact absurd h (by simp [parseIntPart])
  | cons c cs' ih =>
    intro l r rest h hr
    rw [List.cons_append]
    simp only [parseIntPart] at h ⊢
    by_cases hm : (c == '-') = true
    · rw [if_pos hm] at h ⊢
      rcases hi : parseIntPart cs' with _ | ⟨l1, r1⟩
      · rw [hi] at h; exact absurd h (by simp)
      · rw [hi] at h
        dsimp only at h
        by_cases hl1 : (l1.headD ' ' == '-') = true
        · rw [if_pos hl1] at h; exact absurd h (by simp)
        · rw [if_neg hl1] at h
          simp only [Option.some.injEq, Prod.mk.injEq] at h
          obtain ⟨hl, hrr⟩ := h
          subst hl
          subst hrr
          rw [ih l1 r1 rest hi hr]
          dsimp only
          rw [if_neg hl1]
    · rw [if_neg hm] at h ⊢
      by_cases h0 : (c == '0') = true
      · rw [if_pos h0] at h ⊢
        by_cases hd : headDigit cs' = true
        · rw [if_pos hd] at h; exact absurd h (by simp)
        · rw [if_neg hd] at h
          simp only [Option.some.injEq, Prod.mk.injEq] at h
          obtain ⟨hl, hrr⟩ := h
          subst hl
          subst hrr
          cases hcs : cs' with
          | cons c2 t =>
            subst hcs
            rw [if_neg (by simpa [headDigit] using hd)]
          | nil =>
            subst hcs
            simp only [List.nil_append]
            cases hrest : rest with
            | nil => rw [if_neg (by simp [headDigit])]
            | cons r0 rs =>
              have hns := numStop_head rest (hr rfl) r0 (by rw [hrest]; rfl)
              subst hrest
              rw [if_neg (by simp [headDigit, hns.1])]
      · rw [if_neg h0] at h ⊢
        by_cases hd : c.isDigit = true
        · rw [if_pos hd] at h ⊢
          simp only [Option.some.injEq, Prod.mk.injEq] at h
          obtain ⟨hl, hrr⟩ := h
          subst hl
          subst hrr
          have hspan := span_digits_append cs' rest (by
            intro hdw c0 hc0
            exact (numStop_head rest (hr (by simp [hdw])) c0 hc0).1)
          rw [hspan.1, hspan.2]
        · rw [if_neg hd] at h; exact absurd h (by simp)

end JsonM

namespace JsonM

theorem parseFracPart_append (cs l r rest : JStr)
    (h : parseFracPart cs = some (l, r)) (hr : r = [] → numStop rest = true) :
    parseFracPart (cs ++ rest) = some (l, r ++ rest) := by
  cases cs with
  | nil =>
    simp only [parseFracPart, Option.some.injEq, Prod.mk.injEq] at h
    obtain ⟨hl, hrr⟩ := h
    subst hl
    subst hrr
    simp only [List.nil_append]
    cases hrest : rest with
    | nil => rfl
    | cons r0 rs =>
      have hns := numStop_head rest (hr rfl) r0 (by rw [hrest]; rfl)
      subst hrest
      simp only [parseFracPart]
      rw [if_neg (by simp [hns.2.1])]
  | cons c cs' =>
    simp only [parseFracPart] at h
    rw [List.cons_append]
    simp only [parseFracPart]
    by_cases hdot : (c == '.') = true
    · rw [if_pos hdot] at h
      by_cases hemp : (cs'.takeWhile Char.isDigit).isEmpty = true
      · rw [if_pos hemp] at h; exact absurd h (by simp)
      · rw [if_neg hemp] at h
        simp only [Option.some.injEq, Prod.mk.injEq] at h
        obtain ⟨hl, hrr⟩ := h
        subst hl
        subst hrr
        have hspan := span_digits_append cs' rest (by
          intro hdw c0 hc0
          exact (numStop_head rest (hr (by simp [hdw])) c0 hc0).1)
        rw [if_pos hdot, hspan.1, hspan.2, if_neg hemp]
    · rw [if_neg hdot] at h
      simp only [Option.some.injEq, Prod.mk.injEq] at h
      obtain ⟨hl, hrr⟩ := h
      subst hl
      subst hrr
      rw [if_neg hdot]
      rw [List.cons_append]

theorem parseExpPart_append (cs l r rest : JStr)
    (h : parseExpPart cs = some (l, r)) (hr : r = [] → numStop rest = true) :
    parseExpPart (cs ++ rest) = some (l, r ++ rest) := by
  cases cs with
  | nil =>
    simp only [parseExpPart, Option.some.injEq, Prod.mk.injEq] at h
    obtain ⟨hl, hrr⟩ := h
    subst hl
    subst hrr
    simp only [List.nil_append]
    cases hrest : rest with
    | nil => rfl
    | cons r0 rs =>
      have hns := numStop_head rest (hr rfl) r0 (by rw [hrest]; rfl)
      subst hrest
      simp only [parseExpPart]
      rw [if_neg (by simp [hns.2.2.1, hns.2.2.2.1])]
  | cons c cs' =>
    simp only [parseExpPart] at h
    rw [List.cons_append]
    simp only [parseExpPart]
    by_cases he : (c == 'e' || c == 'E') = true
    · rw [if_pos he] at h
      rw [if_pos he]
      cases cs' with
      | nil => exact absurd h (by simp)
      | cons s1 cs2 =>
        rw [List.cons_append]
        dsimp only at h ⊢
        by_cases hsign : (s1 == '+' || s1 == '-') = true
        · rw [if_pos hsign] at h
          by_cases hemp : (cs2.takeWhile Char.isDigit).isEmpty = true
          · rw [if_pos hemp] at h; exact absurd h (by simp)
          · rw [if_neg hemp] at h
            simp only [Option.some.injEq, Prod.mk.injEq] at h
            obtain ⟨hl, hrr⟩ := h
            subst hl
            subst hrr
            have hspan := span_digits_append cs2 rest (by
              intro hdw c0 hc0
              exact (numStop_head rest (hr (by simp [hdw])) c0 hc0).1)
            rw [if_pos hsign, hspan.1, hspan.2, if_neg hemp]
        · rw [if_neg hsign] at h
          by_cases hemp : ((s1 :: cs2).takeWhile Char.isDigit).isEmpty = true
          · rw [if_pos hemp] at h; exact absurd h (by simp)
          · rw [if_neg hemp] at h
            simp only [Option.some.injEq, Prod.mk.injEq] at h
            obtain ⟨hl, hrr⟩ := h
            subst hl
            subst hrr
            have hspan := span_digits_append (s1 :: cs2) rest (by
              intro hdw c0 hc0
              exact (numStop_head rest (hr (by simp [hdw])) c0 hc0).1)
            rw [if_neg hsign]
            rw [← List.cons_append, hspan.1, hspan.2, if_neg hemp]
    · rw [if_neg he] at h
      simp only [Option.some.injEq, Prod.mk.injEq] at h
      obtain ⟨hl, hrr⟩ := h
      subst hl
      subst hrr
      rw [if_neg he, List.cons_append]

theorem parseNumLit_append (cs lit rest : JStr)
    (h : parseNumLit cs = some (lit, []))
    (hr : numStop rest = true) :
    parseNumLit (cs ++ rest) = some (lit, rest) := by
  simp only [parseNumLit] at h ⊢
  rcases hi : parseIntPart cs with _ | ⟨i1, i2⟩
  · rw [hi] at h; exact absurd h (by simp)
  rw [hi] at h
  dsimp only [Option.bind] at h
  rcases hf : parseFracPart i2 with _ | ⟨f1, f2⟩
  · rw [hf] at h; exact absurd h (by simp)
  rw [hf] at h
  dsimp only [Option.bind] at h
  rcases he : parseExpPart f2 with _ | ⟨e1, e2⟩
  · rw [he] at h; exact absurd h (by simp)
  rw [he] at h
  simp only [Option.map_some', Option.some.injEq, Prod.mk.injEq] at h
  obtain ⟨hlit, he2⟩ := h
  subst hlit
  subst he2
  rw [parseIntPart_append cs i1 i2 rest hi (fun _ => hr)]
  dsimp only [Option.bind]
  rw [parseFracPart_append i2 f1 f2 rest hf (fun _ => hr)]
  dsimp only [Option.bind]
  rw [parseExpPart_append f2 e1 [] rest he (fun _ => hr)]
  simp

end JsonM

namespace JsonM

theorem skipWs_ws_cons (c : Char) (s : JStr) (h : isWs c = true) :
    skipWs (c :: s) = skipWs s := by
  simp [skipWs, h]

theorem numHead_not (c : Char) (hd : (c == '-' || c.isDigit) = true) (K : Char)
    (hK : K.isDigit = false) (hKm : (K == '-') = false) : (c == K) = false := by
  by_cases hc : (c == K) = true
  · simp only [beq_iff_eq] at hc
    subst hc
    rcases (Bool.or_eq_true _ _).mp hd with hm | hdg
    · exact absurd hm (by simp_all)
    · exact absurd hdg (by simp [hK])
  · simpa using hc

theorem numHead_props (c : Char) (hd : (c == '-' || c.isDigit) = true) :
    isWs c = false ∧ (c == ']') = false ∧ (c == '\x7d') = false := by
  refine ⟨?_, numHead_not c hd ']' (by decide) (by decide),
    numHead_not c hd '\x7d' (by decide) (by decide)⟩
  simp [isWs, numHead_not c hd ' ' (by decide) (by decide),
    numHead_not c hd '\n' (by decide) (by decide),
    numHead_not c hd '\t' (by decide) (by decide),
    numHead_not c hd '\r' (by decide) (by decide)]

theorem parseNumLit_head (cs l r : JStr) (h : parseNumLit cs = some (l, r)) :
    ∃ c t, cs = c :: t ∧ (c == '-' || c.isDigit) = true := by
  cases cs with
  | nil => exact absurd h (by simp [parseNumLit, parseIntPart])
  | cons c t =>
    refine ⟨c, t, rfl, ?_⟩
    simp only [parseNumLit, parseIntPart] at h
    by_cases hm : (c == '-') = true
    · simp [hm]
    · rw [if_neg hm] at h
      by_cases h0 : (c == '0') = true
      · simp only [beq_iff_eq] at h0
        subst h0
        simp
      · rw [if_neg h0] at h
        by_cases hdg : c.isDigit = true
        · simp [hdg]
        · rw [if_neg hdg] at h
          exact absurd h (by simp)

theorem printVal_head (v : Json) (d : ℕ) (hw : WfV v = true) :
    ∃ c t, printVal d v = c :: t ∧ isWs c = false ∧
      (c == ']') = false ∧ (c == '\x7d') = false := by
  cases v with
  | null => exact ⟨'n', _, rfl, by decide, by decide, by decide⟩
  | bool b =>
    cases b with
    | false => exact ⟨'f', _, rfl, by decide, by decide, by decide⟩
    | true => exact ⟨'t', _, rfl, by decide, by decide, by decide⟩
  | num lit =>
    simp only [WfV, beq_iff_eq] at hw
    obtain ⟨c, t, hct, hd⟩ := parseNumLit_head lit lit [] hw
    obtain ⟨h1, h2, h3⟩ := numHead_props c hd
    exact ⟨c, t, by simp [printVal, hct], h1, h2, h3⟩
  | str s => exact ⟨'"', _, rfl, by decide, by decide, by decide⟩
  | arr a =>
    cases a with
    | nil => exact ⟨'[', _, rfl, by decide, by decide, by decide⟩
    | cons x xs => exact ⟨'[', _, rfl, by decide, by decide, by decide⟩
  | obj o =>
    cases o with
    | nil => exact ⟨'\x7b', _, rfl, by decide, by decide, by decide⟩
    | cons k v fs => exact ⟨'\x7b', _, rfl, by decide, by decide, by decide⟩

theorem printChain_head (x : Json) (xs : JArr) (d : ℕ) (hw : WfV x = true) :
    ∃ c t, printChain d (.cons x xs) = c :: t ∧ isWs c = false ∧
      (c == ']') = false ∧ (c == '\x7d') = false := by
  obtain ⟨c, t, hct, h1, h2, h3⟩ := printVal_head x d hw
  cases xs with
  | nil => exact ⟨c, t, by simp [printChain, hct], h1, h2, h3⟩
  | cons y ys =>
    exact ⟨c, t ++ ',' :: '\n' :: (indent d ++ printChain d (.cons y ys)),
      by simp [printChain, hct], h1, h2, h3⟩

theorem printFields_head (k : JStr) (v : Json) (fs : JObj) (d : ℕ) :
    ∃ t, printFields d (.cons k v fs) = '"' :: t := by
  cases fs with
  | nil => exact ⟨_, rfl⟩
  | cons k2 v2 fs2 => exact ⟨_, rfl⟩

theorem needV_pos (v : Json) : 1 ≤ needV v := by
  cases v <;> simp [needV]

theorem needA_pos (a : JArr) : 1 ≤ needA a := by
  cases a <;> simp [needA]
  omega

theorem needO_pos (o : JObj) : 1 ≤ needO o := by
  cases o <;> simp [needO]
  omega

end JsonM

namespace JsonM

set_option maxHeartbeats 1000000

theorem parse_print_aux : ∀ fuel : ℕ,
    (∀ (v : Json) (d : ℕ) (rest : JStr), WfV v = true → needV v ≤ fuel →
      numStop rest = true →
      parseVal fuel (printVal d v ++ rest) = some (v, rest)) ∧
    (∀ (a : JArr) (d : ℕ) (w rest : JStr), a ≠ .nil → WfA a = true → needA a ≤ fuel →
      w.all (fun c => c == ' ') = true →
      parseArrRest fuel (printChain d a ++ '\n' :: (w ++ (']' :: rest))) = some (a, rest)) ∧
    (∀ (o : JObj) (d : ℕ) (w rest : JStr), o ≠ .nil → WfO o = true → needO o ≤ fuel →
      w.all (fun c => c == ' ') = true →
      parseObjRest fuel (printFields d o ++ '\n' :: (w ++ ('\x7d' :: rest))) =
        some (o, rest)) := by
  intro fuel
  induction fuel with
  | zero =>
    refine ⟨fun v d rest _ hf _ => ?_, fun a d w rest _ _ hf _ => ?_,
      fun o d w rest _ _ hf _ => ?_⟩
    · exact absurd hf (by have := needV_pos v; omega)
    · exact absurd hf (by have := needA_pos a; omega)
    · exact absurd hf (by have := needO_pos o; omega)
  | succ f ihf =>
    obtain ⟨ihV, ihA, ihO⟩ := ihf
    refine ⟨?_, ?_, ?_⟩
    · -- parseVal on a printed value
      intro v d rest hw hf hr
      cases v with
      | null => simp [printVal, parseVal]
      | bool b => cases b <;> simp [printVal, parseVal]
      | num lit =>
        simp only [WfV, beq_iff_eq] at hw
        obtain ⟨c, t, hct, hd⟩ := parseNumLit_head lit lit [] hw
        simp only [printVal]
        rw [hct, List.cons_append]
        simp only [parseVal]
        rw [numHead_not c hd 'n' (by decide) (by decide),
          numHead_not c hd 't' (by decide) (by decide),
          numHead_not c hd 'f' (by decide) (by decide),
          numHead_not c hd '"' (by decide) (by decide),
          numHead_not c hd '[' (by decide) (by decide),
          numHead_not c hd '\x7b' (by decide) (by decide)]
        simp only [Bool.false_eq_true, if_false, hd, if_true]
        rw [← List.cons_append, ← hct, parseNumLit_append lit lit rest hw hr]
        rfl
      | str s =>
        simp only [WfV] at hw
        simp only [printVal, List.cons_append, List.append_assoc, List.singleton_append]
        simp [parseVal, parseStrChars_plain s rest hw]
      | arr a =>
        cases a with
        | nil =>
          simp only [printVal, List.cons_append, List.singleton_append, List.nil_append]
          simp [parseVal, skipWs_not_ws_cons ']' rest (by decide), headIs]
        | cons x xs =>
          simp only [WfV, WfA, Bool.and_eq_true] at hw
          simp only [needV, needA] at hf
          obtain ⟨c, t, hct, hcw, hc1, hc2⟩ := printChain_head x xs (d + 1) hw.1
          simp only [printVal, List.cons_append, List.append_assoc, List.singleton_append,
            List.nil_append]
          simp only [parseVal, show (('[' : Char) == 'n') = false from rfl,
            show (('[' : Char) == 't') = false from rfl,
            show (('[' : Char) == 'f') = false from rfl,
            show (('[' : Char) == '"') = false from rfl,
            show (('[' : Char) == '[') = true from rfl,
            Bool.false_eq_true, if_false, if_true]
          have hskip : skipWs ('\n' :: (indent (d + 1) ++ (printChain (d + 1) (.cons x xs) ++
              ('\n' :: (indent d ++ (']' :: rest)))))) =
              printChain (d + 1) (.cons x xs) ++ ('\n' :: (indent d ++ (']' :: rest))) := by
            rw [skipWs_ws_cons _ _ (by decide), skipWs_indent, hct, List.cons_append,
              skipWs_not_ws_cons _ _ hcw, ← List.cons_append, ← hct]
          rw [hskip, hct, List.cons_append]
          simp only [headIs, hc1, Bool.false_eq_true, if_false]
          rw [← List.cons_append, ← hct]
          rw [ihA (.cons x xs) (d + 1) (indent d) rest (by simp)
            (by simp [WfA, hw.1, hw.2]) (by simp only [needA]; omega) (indent_all_spaces d)]
          rfl
      | obj o =>
        cases o with
        | nil =>
          simp only [printVal, List.cons_append, List.singleton_append, List.nil_append]
          simp [parseVal, skipWs_not_ws_cons '\x7d' rest (by decide), headIs]
        | cons k v fs =>
          simp only [WfV, WfO, Bool.and_eq_true] at hw
          simp only [needV, needO] at hf
          obtain ⟨kt, hkt⟩ := printFields_head k v fs (d + 1)
          simp only [printVal, List.cons_append, List.append_assoc, List.singleton_append,
            List.nil_append]
          simp only [parseVal, show (('\x7b' : Char) == 'n') = false from rfl,
            show (('\x7b' : Char) == 't') = false from rfl,
            show (('\x7b' : Char) == 'f') = false from rfl,
            show (('\x7b' : Char) == '"') = false from rfl,
            show (('\x7b' : Char) == '[') = false from rfl,
            show (('\x7b' : Char) == '\x7b') = true from rfl,
            Bool.false_eq_true, if_false, if_true]
          have hskip : skipWs ('\n' :: (indent (d + 1) ++ (printFields (d + 1) (.cons k v fs) ++
              ('\n' :: (indent d ++ ('\x7d' :: rest)))))) =
              printFields (d + 1) (.cons k v fs) ++ ('\n' :: (indent d ++ ('\x7d' :: rest))) := by
            rw [skipWs_ws_cons _ _ (by decide), skipWs_indent, hkt, List.cons_append,
              skipWs_not_ws_cons _ _ (by decide), ← List.cons_append, ← hkt]
          rw [hskip, hkt, List.cons_append]
          simp only [headIs, Bool.false_eq_true, if_false,
            show ('"' == '\x7d') = false from rfl]
          rw [← List.cons_append, ← hkt]
          rw [ihO (.cons k v fs) (d + 1) (indent d) rest (by simp)
            (by simp [WfO, hw.1.1, hw.1.2, hw.2]) (by simp only [needO]; omega)
            (indent_all_spaces d)]
          rfl
    · -- parseArrRest on a printed item chain
      intro a d w rest hne hw hf hws
      cases a with
      | nil => exact absurd rfl hne
      | cons x xs =>
        cases xs with
        | nil =>
          simp only [WfA, Bool.and_eq_true, and_true] at hw
          simp only [needA] at hf
          simp only [printChain, List.append_assoc, List.cons_append]
          simp only [parseArrRest]
          rw [ihV x d ('\n' :: (w ++ (']' :: rest))) hw (by omega) (by simp [numStop])]
          dsimp only [Option.bind]
          have hsk : skipWs ('\n' :: (w ++ (']' :: rest))) = ']' :: rest := by
            rw [skipWs_ws_cons _ _ (by decide), skipWs_all_spaces w _ hws,
              skipWs_not_ws_cons _ _ (by decide)]
          rw [hsk]
          simp [headIs]
        | cons y ys =>
          simp only [WfA, Bool.and_eq_true] at hw
          simp only [needA] at hf
          simp only [printChain, List.append_assoc, List.cons_append]
          simp only [parseArrRest]
          rw [ihV x d _ hw.1 (by omega) (by simp [numStop])]
          dsimp only [Option.bind]
          rw [skipWs_not_ws_cons ',' _ (by decide)]
          simp only [headIs, show ((',' : Char) == ']') = false from rfl,
            show ((',' : Char) == ',') = true from rfl, Bool.false_eq_true,
            if_false, if_true, List.tail_cons]
          have hsk2 : skipWs ('\n' :: (indent d ++ (printChain d (.cons y ys) ++
              ('\n' :: (w ++ (']' :: rest)))))) =
              printChain d (.cons y ys) ++ ('\n' :: (w ++ (']' :: rest))) := by
            obtain ⟨c, t, hct, hcw, _, _⟩ := printChain_head y ys d hw.2.1
            rw [skipWs_ws_cons _ _ (by decide), skipWs_indent, hct, List.cons_append,
              skipWs_not_ws_cons _ _ hcw, ← List.cons_append, ← hct]
          rw [hsk2]
          rw [ihA (.cons y ys) d w rest (by simp) (by simp [WfA, hw.2.1, hw.2.2])
            (by simp only [needA]; omega) hws]
          rfl
    · -- parseObjRest on a printed field chain
      intro o d w rest hne hw hf hws
      cases o with
      | nil => exact absurd rfl hne
      | cons k v fs =>
        cases fs with
        | nil =>
          simp only [WfO, Bool.and_eq_true, and_true] at hw
          simp only [needO] at hf
          simp only [printFields, List.append_assoc, List.cons_append]
          simp only [parseObjRest]
          rw [parseStrChars_plain k _ hw.1]
          dsimp only [Option.bind]
          rw [skipWs_not_ws_cons ':' _ (by decide)]
          simp only [headIs, show ((':' : Char) == ':') = true from rfl, if_true,
            List.tail_cons]
          have hsk : skipWs (' ' :: (printVal d v ++ ('\n' :: (w ++ ('\x7d' :: rest))))) =
              printVal d v ++ ('\n' :: (w ++ ('\x7d' :: rest))) := by
            obtain ⟨c, t, hct, hcw, _, _⟩ := printVal_head v d hw.2
            rw [skipWs_ws_cons _ _ (by decide), hct, List.cons_append,
              skipWs_not_ws_cons _ _ hcw, ← List.cons_append, ← hct]
          rw [hsk]
          rw [ihV v d _ hw.2 (by omega) (by simp [numStop])]
          dsimp only [Option.bind]
          have hsk2 : skipWs ('\n' :: (w ++ ('\x7d' :: rest))) = '\x7d' :: rest := by
            rw [skipWs_ws_cons _ _ (by decide), skipWs_all_spaces w _ hws,
              skipWs_not_ws_cons _ _ (by decide)]
          rw [hsk2]
          simp [headIs]
        | cons k2 v2 fs2 =>
          simp only [WfO, Bool.and_eq_true] at hw
          simp only [needO] at hf
          simp only [printFields, List.append_assoc, List.cons_append]
          simp only [parseObjRest]
          rw [parseStrChars_plain k _ hw.1.1]
          dsimp only [Option.bind]
          rw [skipWs_not_ws_cons ':' _ (by decide)]
          simp only [headIs, show ((':' : Char) == ':') = true from rfl, if_true,
            List.tail_cons]
          have hsk : skipWs (' ' :: (printVal d v ++ (',' :: ('\n' :: (indent d ++
              (printFields d (.cons k2 v2 fs2) ++ ('\n' :: (w ++ ('\x7d' :: rest))))))))) =
              printVal d v ++ (',' :: ('\n' :: (indent d ++
              (printFields d (.cons k2 v2 fs2) ++ ('\n' :: (w ++ ('\x7d' :: rest))))))) := by
            obtain ⟨c, t, hct, hcw, _, _⟩ := printVal_head v d hw.1.2
            rw [skipWs_ws_cons _ _ (by decide), hct, List.cons_append,
              skipWs_not_ws_cons _ _ hcw, ← List.cons_append, ← hct]
          rw [hsk]
          rw [ihV v d _ hw.1.2 (by omega) (by simp [numStop])]
          dsimp only [Option.bind]
          rw [skipWs_not_ws_cons ',' _ (by decide)]
          simp only [headIs, show ((',' : Char) == '\x7d') = false from rfl,
            show ((',' : Char) == ',') = true from rfl, Bool.false_eq_true,
            if_false, if_true, List.tail_cons]
          have hsk2 : skipWs ('\n' :: (indent d ++ (printFields d (.cons k2 v2 fs2) ++
              ('\n' :: (w ++ ('\x7d' :: rest)))))) =
              printFields d (.cons k2 v2 fs2) ++ ('\n' :: (w ++ ('\x7d' :: rest))) := by
            obtain ⟨kt, hkt⟩ := printFields_head k2 v2 fs2 d
            rw [skipWs_ws_cons _ _ (by decide), skipWs_indent, hkt, List.cons_append,
              skipWs_not_ws_cons _ _ (by decide), ← List.cons_append, ← hkt]
          rw [hsk2]
          rw [ihO (.cons k2 v2 fs2) d w rest (by simp)
            (by simp [WfO, hw.2.1.1, hw.2.1.2, hw.2.2])
            (by simp only [needO]; omega) hws]
          rfl

end JsonM

namespace JsonM

theorem need_le_print_aux : ∀ n : ℕ,
    (∀ v : Json, needV v ≤ n → ∀ d, needV v ≤ (printVal d v).length + 1) ∧
    (∀ a : JArr, needA a ≤ n → ∀ d, a ≠ .nil → needA a ≤ (printChain d a).length + 3) ∧
    (∀ o : JObj, needO o ≤ n → ∀ d, o ≠ .nil → needO o ≤ (printFields d o).length + 3) := by
  intro n
  induction n with
  | zero =>
    refine ⟨fun v hv => ?_, fun a ha => ?_, fun o ho => ?_⟩
    · exact absurd hv (by have := needV_pos v; omega)
    · exact absurd ha (by have := needA_pos a; omega)
    · exact absurd ho (by have := needO_pos o; omega)
  | succ n ih =>
    obtain ⟨ihV, ihA, ihO⟩ := ih
    refine ⟨?_, ?_, ?_⟩
    · intro v hv d
      cases v with
      | null => simp [needV, printVal]
      | bool b => cases b <;> simp [needV, printVal]
      | num lit => simp [needV, printVal]
      | str s => simp [needV, printVal]
      | arr a =>
        cases a with
        | nil => simp [needV, needA, printVal]
        | cons x xs =>
          simp only [needV] at hv ⊢
          have h1 := ihA (.cons x xs) (by omega) (d + 1) (by simp)
          simp only [printVal, List.length_append, List.length_cons, indent,
            List.length_replicate]
          omega
      | obj o =>
        cases o with
        | nil => simp [needV, needO, printVal]
        | cons k v fs =>
          simp only [needV] at hv ⊢
          have h1 := ihO (.cons k v fs) (by omega) (d + 1) (by simp)
          simp only [printVal, List.length_append, List.length_cons, indent,
            List.length_replicate]
          omega
    · intro a ha d hne
      cases a with
      | nil => exact absurd rfl hne
      | cons x xs =>
        simp only [needA] at ha ⊢
        cases xs with
        | nil =>
          have h1 := ihV x (by omega) d
          simp only [printChain, needA]
          omega
        | cons y ys =>
          have h1 := ihV x (by simp only [needA] at ha; omega) d
          have h2 := ihA (.cons y ys) (by omega) d (by simp)
          simp only [printChain, List.length_append, List.length_cons, indent,
            List.length_replicate]
          omega
    · intro o ho d hne
      cases o with
      | nil => exact absurd rfl hne
      | cons k v fs =>
        simp only [needO] at ho ⊢
        cases fs with
        | nil =>
          have h1 := ihV v (by omega) d
          simp only [printFields, needO, List.length_append, List.length_cons]
          omega
        | cons k2 v2 fs2 =>
          have h1 := ihV v (by simp only [needO] at ho; omega) d
          have h2 := ihO (.cons k2 v2 fs2) (by omega) d (by simp)
          simp only [printFields, List.length_append, List.length_cons, indent,
            List.length_replicate]
          omega

theorem parseJson_print (v : Json) (hw : WfV v = true) :
    parseJson (printVal 0 v) = some v := by
  obtain ⟨c, t, hct, hcw, _, _⟩ := printVal_head v 0 hw
  have hfuel : needV v ≤ (printVal 0 v).length + 1 :=
    (need_le_print_aux (needV v)).1 v le_rfl 0
  have hmain := (parse_print_aux ((printVal 0 v).length + 1)).1 v 0 [] hw hfuel rfl
  rw [List.append_nil] at hmain
  rw [parseJson, hct, skipWs_not_ws_cons _ _ hcw, ← hct, hmain]
  rfl

end JsonM

namespace AppM

open JsonM

theorem processCircuit_currentCircuit (c : Json) (out : FetchOutcome) (st : AppState) :
    ((processCircuit c out st).1).currentCircuit = st.currentCircuit := by
  by_cases hg : gatesEmpty c = true
  · simp [processCircuit, hg]
  · simp only [Bool.not_eq_true] at hg
    rcases out with m | ⟨ok, status, body⟩
    · simp [processCircuit, hg]
    · by_cases hok : ok = false
      · simp [processCircuit, hg, hok]
      · rcases body with m | j
        · simp [processCircuit, hg, hok]
        · rcases he : getField j errorKey with _ | e
          · simp [processCircuit, hg, hok, he]
          · by_cases ht : jsTruthy e = true
            · simp [processCircuit, hg, hok, he, ht]
            · simp [processCircuit, hg, hok, he, ht]

theorem submittedOk_of_bounds (st : Builder.BState)
    (h1 : 1 ≤ st.numQubits) (h5 : st.numQubits ≤ 5) :
    submittedNumQubitsOk (circuitJson st) := by
  have hfield : getField (circuitJson st) numQubitsKey =
      some (.num (natLit st.numQubits)) := rfl
  have hcases : st.numQubits = 1 ∨ st.numQubits = 2 ∨ st.numQubits = 3 ∨
      st.numQubits = 4 ∨ st.numQubits = 5 := by omega
  rcases hcases with h | h | h | h | h <;>
    · unfold submittedNumQubitsOk
      rw [hfield, h]
      exact ⟨by decide, by decide⟩

end AppM

/-- C1: Processing the circuit `{num_qubits: 2, gates: [{type: h, qubit: 0},
{type: cx, control: 0, target: 1}]}` (the Bell state) through the modelled
pipeline (state simulator, density matrix, partial trace, Bloch projector over
the exact field ℚ[i,√2]) yields, for qubit 0 and for qubit 1, a Bloch vector
exactly equal to (0,0,0) — in particular approximately (0,0,0). -/
theorem bell_state_bloch_centered :
    QSim.blochBeq (QSim.blochOfCircuit 2 QSim.bellGates 0) (0, 0, 0) = true ∧
    QSim.blochBeq (QSim.blochOfCircuit 2 QSim.bellGates 1) (0, 0, 0) = true :=
  ⟨by decide, by decide⟩

/-- C2 counterexample: a 200-OK response whose body is `{"error": ""}` does
contain an `error` field — per the claim this processing call fails — yet
`processCircuit` stores the body as the result: `quantumStates` goes from
`none` to the body, so a result is written on a call the claim counts as
failing. -/
theorem processCircuit_empty_error_field_stores_result :
    AppM.getField Examples.emptyErrorBody AppM.errorKey = some (.str []) ∧
    AppM.initApp.quantumStates = none ∧
    (AppM.processCircuit Examples.bellCircuit
        (.resp true 200 (.parsed Examples.emptyErrorBody)) AppM.initApp).1.quantumStates =
      some Examples.emptyErrorBody :=
  ⟨rfl, rfl, rfl⟩

/-- C2 (amended): for every processing call with a non-empty gate list whose
HTTP response has a non-success status, or whose response body has a truthy
(non-empty) `error` field, `processCircuit` records an error message and
stores no result: `quantumStates` keeps its previous value. -/
theorem processCircuit_failure_no_result (c : JsonM.Json) (out : AppM.FetchOutcome)
    (st : AppM.AppState) (hg : AppM.gatesEmpty c = false)
    (hfail : (∃ status body, out = .resp false status body) ∨
      (∃ status j e, out = .resp true status (.parsed j) ∧
        AppM.getField j AppM.errorKey = some e ∧ AppM.jsTruthy e = true)) :
    (∃ m, (AppM.processCircuit c out st).1.errorMsg = some m) ∧
    (AppM.processCircuit c out st).1.quantumStates = st.quantumStates := by
  rcases hfail with ⟨status, body, rfl⟩ | ⟨status, j, e, rfl, he, ht⟩
  · constructor
    · exact ⟨AppM.failPrefix ++ AppM.httpErrMsg status,
        by simp [AppM.processCircuit, hg]⟩
    · simp [AppM.processCircuit, hg]
  · constructor
    · exact ⟨AppM.failPrefix ++ AppM.errString e,
        by simp [AppM.processCircuit, hg, he, ht]⟩
    · simp [AppM.processCircuit, hg, he, ht]

/-- C2 witness: the amended theorem applied to the Bell circuit and a failed
HTTP-500 fetch, from the initial app state. -/
theorem processCircuit_failure_no_result_witness :
    (∃ m, (AppM.processCircuit Examples.bellCircuit Examples.failedOutcome
      AppM.initApp).1.errorMsg = some m) ∧
    (AppM.processCircuit Examples.bellCircuit Examples.failedOutcome
      AppM.initApp).1.quantumStates = AppM.initApp.quantumStates :=
  processCircuit_failure_no_result Examples.bellCircuit Examples.failedOutcome
    AppM.initApp rfl (Or.inl ⟨500, .parseFail [], rfl⟩)

/-- C3 counterexample: importing the file
`{"num_qubits": 7, "gates": [{"type": "h", "qubit": 0}]}` issues a processing
request whose circuit has `num_qubits` 7, not an integer in [1,5]:
`importCircuit` validates nothing. -/
theorem import_submits_num_qubits_7 :
    (AppM.importCircuit Examples.badImportStr (.netErr []) AppM.initApp).2 =
      some Examples.badCircuit ∧
    AppM.getField Examples.badCircuit AppM.numQubitsKey = some (.num ['7']) ∧
    ¬ AppM.submittedNumQubitsOk Examples.badCircuit := by
  refine ⟨rfl, rfl, ?_⟩
  intro h
  exact absurd h.2 (by decide)

/-- C3 (amended): the builder's own controls — the qubit-count selector (whose
options are 1–5), gate edits, and its local examples — keep `num_qubits` an
integer in [1,5]: under any event sequence in which every
`useEffect([initialCircuit])` sync (`CircuitBuilder.js` lines 32–37) copies in
a circuit with `num_qubits` in [1,5], every circuit the builder reports has
`num_qubits` in [1,5].  The restriction is necessary: the sync copies App's
`currentCircuit` into the builder unvalidated, so an imported circuit with
`num_qubits` 7 seeds the builder, after which the builder itself reports
out-of-range circuits; and imported circuits are also submitted to processing
directly, without validation. -/
theorem builder_circuits_num_qubits_in_range (evs : List Builder.BEvent)
    (hs : evs.all Builder.syncBounded = true) :
    AppM.submittedNumQubitsOk (AppM.circuitJson (Builder.runB evs)) := by
  obtain ⟨h1, h5⟩ := Builder.runB_numQubits evs hs
  exact AppM.submittedOk_of_bounds _ h1 h5

/-- C3 witness: the amended theorem at a concrete history — select 5 qubits,
load the GHZ example, sync an in-range circuit back from App, add a gate. -/
theorem builder_circuits_num_qubits_in_range_witness :
    AppM.submittedNumQubitsOk (AppM.circuitJson (Builder.runB
      [.selectNumQubits 5 (by decide),
       .loadExample ['g', 'h', 'z'],
       .syncInitial 3 [.single ['h'] 0 none],
       .add])) :=
  builder_circuits_num_qubits_in_range
    [.selectNumQubits 5 (by decide),
     .loadExample ['g', 'h', 'z'],
     .syncInitial 3 [.single ['h'] 0 none],
     .add] (by decide)

/-- C4: an attempt to add a two-qubit gate (cx or cz) with the same control and
target leaves the builder state unchanged (addGate returns before appending),
and no gate with control = target is ever added by addGate. -/
theorem addGate_rejects_equal_control_target :
    (∀ (st : Builder.BState) (info : Builder.GateInfo),
      Builder.lookupGate st.selectedGate = some info → info.gtype = .two →
      st.selectedControl = st.selectedTarget → Builder.addGate st = st) ∧
    (∀ (st : Builder.BState) (ty : JStr) (c t : ℕ),
      Builder.GateB.two ty c t ∈ (Builder.addGate st).gates →
      Builder.GateB.two ty c t ∉ st.gates → c ≠ t) :=
  ⟨Builder.addGate_blocked, Builder.addGate_no_equal_pair⟩

/-- C4 witness: with CNOT selected and control = target = 1, addGate is the
identity. -/
theorem addGate_rejects_equal_control_target_witness :
    Builder.addGate Examples.cxBlockedState = Examples.cxBlockedState :=
  addGate_rejects_equal_control_target.1 Examples.cxBlockedState
    ⟨"CNOT", "⊕", .two, false⟩ rfl rfl rfl

/-- C5: every single-qubit gate addGate appends carries an angle field exactly
when its type is one of the catalog's hasAngle types rx, ry, rz, and that
angle is the rotation-angle slider's current value; h, x, y, z gates carry no
angle. -/
theorem addGate_single_angle_iff_rotation (st : Builder.BState)
    (info : Builder.GateInfo) (hl : Builder.lookupGate st.selectedGate = some info)
    (hs : info.gtype = .single) :
    (Builder.addGate st).gates = st.gates ++
      [Builder.GateB.single st.selectedGate st.selectedQubit
        (if st.selectedGate ∈ Builder.rotationKeys then some st.rotationAngle
         else none)] ∧
    (info.hasAngle = true ↔ st.selectedGate ∈ Builder.rotationKeys) :=
  Builder.addGate_single_shape st info hl hs

/-- C5 witness: with Rx selected, the appended gate carries the slider angle. -/
theorem addGate_single_angle_iff_rotation_witness :
    (Builder.addGate Examples.rxState).gates = Examples.rxState.gates ++
      [Builder.GateB.single Examples.rxState.selectedGate
        Examples.rxState.selectedQubit
        (if Examples.rxState.selectedGate ∈ Builder.rotationKeys then
          some Examples.rxState.rotationAngle else none)] ∧
    ((⟨"Rotation-X", "Rx", .single, true⟩ : Builder.GateInfo).hasAngle = true ↔
      Examples.rxState.selectedGate ∈ Builder.rotationKeys) :=
  addGate_single_angle_iff_rotation Examples.rxState
    ⟨"Rotation-X", "Rx", .single, true⟩ rfl rfl

/-- C6: the builder's three local example circuits are exactly the spec's
scenarios — bell: 2 qubits, [h 0, cx 0 1]; ghz: 3 qubits,
[h 0, cx 0 1, cx 1 2]; superposition: 1 qubit, [h 0] — and loading one sets
exactly that qubit count and gate list. -/
theorem builder_examples_match_spec (st : Builder.BState) :
    Builder.loadExampleCircuit "bell".toList st =
      { st with numQubits := 2
                gates := [.single ['h'] 0 none, .two ['c', 'x'] 0 1] } ∧
    Builder.loadExampleCircuit "ghz".toList st =
      { st with numQubits := 3
                gates := [.single ['h'] 0 none, .two ['c', 'x'] 0 1,
                  .two ['c', 'x'] 1 2] } ∧
    Builder.loadExampleCircuit "superposition".toList st =
      { st with numQubits := 1, gates := [.single ['h'] 0 none] } :=
  ⟨rfl, rfl, rfl⟩

/-- C7: gate-list edits preserve the order of untouched gates — addGate only
ever appends at the end (at most one gate, leaving the existing list as a
prefix), and removeGate i removes exactly position i. -/
theorem gate_edits_preserve_order (st : Builder.BState) :
    (∃ tl : List Builder.GateB, tl.length ≤ 1 ∧
      (Builder.addGate st).gates = st.gates ++ tl) ∧
    ∀ i : ℕ, (Builder.removeGate i st).gates = st.gates.eraseIdx i :=
  ⟨Builder.addGate_appends st, fun i => by
    simp [Builder.removeGate, Builder.removeIdxJS_eq_eraseIdx]⟩

/-- C8: export then import round trips — for every current circuit (a
well-formed JSON value, as every circuit the app builds is), the file
`exportCircuit` writes (JSON.stringify with indent 2) parses back, via
`importCircuit`'s JSON.parse, to a value structurally equal to the exported
circuit, which becomes the new current circuit. -/
theorem export_import_roundtrip (st : AppM.AppState) (out : AppM.FetchOutcome)
    (hw : JsonM.WfV st.currentCircuit = true) :
    JsonM.parseJson (AppM.exportCircuit st) = some st.currentCircuit ∧
    (AppM.importCircuit (AppM.exportCircuit st) out st).1.currentCircuit =
      st.currentCircuit := by
  have hrt : JsonM.parseJson (AppM.exportCircuit st) = some st.currentCircuit :=
    JsonM.parseJson_print st.currentCircuit hw
  refine ⟨hrt, ?_⟩
  simp only [AppM.importCircuit, hrt]
  rw [AppM.processCircuit_currentCircuit]

/-- C8 witness: the round trip at the initial circuit `{num_qubits: 2,
gates: []}`. -/
theorem export_import_roundtrip_witness :
    JsonM.WfV AppM.initApp.currentCircuit = true ∧
    (JsonM.parseJson (AppM.exportCircuit AppM.initApp) =
        some AppM.initApp.currentCircuit ∧
      (AppM.importCircuit (AppM.exportCircuit AppM.initApp) (.netErr [])
        AppM.initApp).1.currentCircuit = AppM.initApp.currentCircuit) :=
  ⟨rfl, export_import_roundtrip AppM.initApp (.netErr []) rfl⟩

/-- C9: importing a file whose contents are not valid JSON is atomic —
`importCircuit` sets the error message to `Invalid circuit file format` and
leaves the current circuit and the displayed quantum states unchanged, issuing
no request. -/
theorem import_invalid_json_atomic (s : JStr) (out : AppM.FetchOutcome)
    (st : AppM.AppState) (h : JsonM.parseJson s = none) :
    (AppM.importCircuit s out st).1.currentCircuit = st.currentCircuit ∧
    (AppM.importCircuit s out st).1.quantumStates = st.quantumStates ∧
    (AppM.importCircuit s out st).1.errorMsg = some AppM.invalidFileMsg ∧
    (AppM.importCircuit s out st).2 = none := by
  simp [AppM.importCircuit, h]

/-- C9 witness: importing the non-JSON content `not a circuit`. -/
theorem import_invalid_json_atomic_witness :
    (AppM.importCircuit Examples.notJsonStr (.netErr [])
        AppM.initApp).1.currentCircuit = AppM.initApp.currentCircuit ∧
    (AppM.importCircuit Examples.notJsonStr (.netErr [])
        AppM.initApp).1.quantumStates = AppM.initApp.quantumStates ∧
    (AppM.importCircuit Examples.notJsonStr (.netErr [])
        AppM.initApp).1.errorMsg = some AppM.invalidFileMsg ∧
    (AppM.importCircuit Examples.notJsonStr (.netErr []) AppM.initApp).2 = none :=
  import_invalid_json_atomic Examples.notJsonStr (.netErr []) AppM.initApp rfl

/-- C10: for every circuit whose gates list is the empty array, no processing
request is issued and quantumStates is set to null — both in processCircuit
(early return before the fetch) and in handleCircuitChange (no debounced
processing scheduled). -/
theorem empty_gates_no_request (c : JsonM.Json) (out : AppM.FetchOutcome)
    (st : AppM.AppState)
    (h : AppM.getField c AppM.gatesKey = some (.arr .nil)) :
    (AppM.processCircuit c out st).1.quantumStates = none ∧
    (AppM.processCircuit c out st).2 = none ∧
    AppM.handleCircuitChange c st =
      .ok { st with currentCircuit := c, quantumStates := none } false := by
  have hge : AppM.gatesEmpty c = true := by
    simp [AppM.gatesEmpty, h, AppM.jsFalsy, AppM.jsLength, AppM.jarrLength]
  refine ⟨?_, ?_, ?_⟩
  · simp [AppM.processCircuit, hge]
  · simp [AppM.processCircuit, hge]
  · simp [AppM.handleCircuitChange, h, AppM.jsLength, AppM.jarrLength]

/-- C10 witness: the initial circuit `{num_qubits: 2, gates: []}`. -/
theorem empty_gates_no_request_witness :
    (AppM.processCircuit AppM.initApp.currentCircuit (.netErr [])
        AppM.initApp).1.quantumStates = none ∧
    (AppM.processCircuit AppM.initApp.currentCircuit (.netErr [])
        AppM.initApp).2 = none ∧
    AppM.handleCircuitChange AppM.initApp.currentCircuit AppM.initApp =
      .ok { AppM.initApp with
            currentCircuit := AppM.initApp.currentCircuit
            quantumStates := none } false :=
  empty_gates_no_request AppM.initApp.currentCircuit (.netErr []) AppM.initApp rfl
